import Mathlib

/-!
Verification of the ST7789V2 display driver (protocol sequencing and
chunked-transfer engine).  The driver code is shallowly embedded: every
bus / pin action becomes an event in a trace, machine integers become
`Nat` with explicit `% 2^16` / `% 2^8` where the Rust code narrows, and
fallible paths return `Option`.

Sources embedded here:
  * `src/st7789v2/dma/st7789v2dma.rs` — the DMA driver (init, set_size,
    begin_draw, send_frame, draw_entire_screen, draw_color_entire_screen,
    send_command, send_data_u8) together with the chip-select macros of
    `src/st7789v2/dma/macros.rs`.
  * `src/st7789v2/dma/drawtarget.rs` — `fill_contiguous` of the
    `DrawTarget` implementation.
  * `src/st7789v2/spi.rs` — the synchronous SPI driver (init,
    draw_screen, send_command, send_data).
-/

namespace ST7789

/-- One observable action of the DMA driver on its pins / bus.
`cmd b` is a one-byte transfer performed with the data/command line low,
`data bs` is a payload transfer performed with the line high. -/
inductive Ev where
  | rstLow : Ev
  | rstHigh : Ev
  | csLow : Ev
  | csHigh : Ev
  | dcLow : Ev
  | dcHigh : Ev
  | delayMs : Nat → Ev
  | cmd : Nat → Ev
  | data : List Nat → Ev
deriving DecidableEq, Repr

/-- Command opcodes, from `Commands` in `src/st7789v2/common.rs`. -/
def SWRESET : Nat := 0x01
def SLPOUT : Nat := 0x11
def COLMOD : Nat := 0x3A
def MADCTL : Nat := 0x36
def DISPON : Nat := 0x29
def DISPOFF : Nat := 0x28
def CASET : Nat := 0x2A
def RASET : Nat := 0x2B
def RAMWR : Nat := 0x2C
def INVON : Nat := 0x21

/-- Truncation to a `u16` value (Rust `as u16` on an unsigned source). -/
def u16of (n : Nat) : Nat := n % 65536

/-- Wrapping `u16` addition, mirroring release-mode Rust `u16` arithmetic. -/
def u16add (a b : Nat) : Nat := (a + b) % 65536

/-- Wrapping `u16` subtraction (`a - b` for `b ≤ 65536`). -/
def u16sub (a b : Nat) : Nat := (a + 65536 - b) % 65536

/-- Rust `i32 as u16`: the low 16 bits of the two's-complement value. -/
def toU16 (i : Int) : Nat := (i % 65536).toNat

/-- Big-endian byte pair of a 16-bit value, as the Rust code computes it
with `(v >> 8) as u8` and `(v & 0xFF) as u8`. -/
def be16 (n : Nat) : List Nat := [n / 256 % 256, n % 256]

/-- Decode a big-endian byte pair (used only to state window properties). -/
def dec16 : List Nat → Nat
  | [a, b] => a * 256 + b
  | _ => 0

/-- Trace of the private DMA `send_command`: the data/command line is set
low and one command byte is transferred; chip-select is untouched
(`// CS is handled externally by macro`). -/
def sendCommandTr (c : Nat) : List Ev := [Ev.dcLow, Ev.cmd c]

/-- Trace of the private DMA `send_data_u8`: data/command line high, one
data byte transferred; chip-select untouched. -/
def sendDataU8Tr (b : Nat) : List Ev := [Ev.dcHigh, Ev.data [b]]

/-- Trace of `send_caset_data_safe` / `send_raset_data_safe`: line high,
4-byte address payload transferred, then the data processing delay. -/
def sendAddrDataTr (payload : List Nat) (delayMs : Nat) : List Ev :=
  [Ev.dcHigh, Ev.data payload, Ev.delayMs delayMs]

/-- The `cs_command!` macro of `src/st7789v2/dma/macros.rs`: select,
send the command, delay with chip-select still low, deselect. -/
def csCommandTr (c delayMs : Nat) : List Ev :=
  [Ev.csLow] ++ sendCommandTr c ++ [Ev.delayMs delayMs, Ev.csHigh]

/-- The `cs_data!` macro: select, send one data byte, delay, deselect. -/
def csDataTr (b delayMs : Nat) : List Ev :=
  [Ev.csLow] ++ sendDataU8Tr b ++ [Ev.delayMs delayMs, Ev.csHigh]

/-- The `cs_command_data_sequence!` macro: one chip-select assertion
around command, command delay, 4-byte address data and data delay. -/
def csCommandDataSeqTr (c : Nat) (payload : List Nat) (cmdDelay dataDelay : Nat) : List Ev :=
  [Ev.csLow] ++ sendCommandTr c ++ [Ev.delayMs cmdDelay]
    ++ sendAddrDataTr payload dataDelay ++ [Ev.csHigh]

/-- Embeds `ST7789V2DMA::set_size` (`src/st7789v2/dma/st7789v2dma.rs`): adds the
vertical `OFFSET` to both y bounds (wrapping `u16` addition), serializes
all four bounds big-endian into the CASET/RASET buffers, and issues the
two command+data sequences. Arguments are `u16` values. -/
def setSizeTr (OFFSET xs xe ys ye : Nat) : List Ev :=
  let actualYs := u16add ys (u16of OFFSET)
  let actualYe := u16add ye (u16of OFFSET)
  csCommandDataSeqTr CASET (be16 xs ++ be16 xe) 1 1
    ++ csCommandDataSeqTr RASET (be16 actualYs ++ be16 actualYe) 1 1

/-- Embeds `ST7789V2DMA::begin_draw`: the write-RAM command under `cs_command!`
with a 10 ms delay. -/
def beginDrawTr : List Ev := csCommandTr RAMWR 10

/-- Embeds `ST7789V2DMA::init`: hardware reset then the fixed command sequence,
each proper command step via the chip-select macros. -/
def initDmaTr : List Ev :=
  [Ev.rstLow, Ev.delayMs 120, Ev.rstHigh, Ev.delayMs 150]
    ++ csCommandTr SWRESET 150
    ++ csCommandTr SLPOUT 120
    ++ csCommandTr COLMOD 1
    ++ csDataTr 0x55 10
    ++ csCommandTr MADCTL 1
    ++ csDataTr 0x00 10
    ++ csCommandTr INVON 1
    ++ csCommandTr DISPON 50

/-- Embeds `buffer.chunks(n)` of Rust slices: consecutive chunks of size `n`,
the last possibly shorter. (`n = 0` never occurs at call sites.) -/
def chunksOf (n : Nat) (l : List α) : List (List α) :=
  match l, n with
  | [], _ => []
  | _ :: _, 0 => []
  | x :: xs, m + 1 =>
      ((x :: xs).take (m + 1)) :: chunksOf (m + 1) ((x :: xs).drop (m + 1))
termination_by l.length
decreasing_by simp only [List.length_drop, List.length_cons]; omega

/-- Embeds `ST7789V2DMA::send_frame`: set data mode, select, send the buffer in
32 KiB chunks, deselect. -/
def sendFrameTr (buffer : List Nat) : List Ev :=
  [Ev.dcHigh, Ev.csLow]
    ++ (chunksOf (32 * 1024) buffer).map Ev.data
    ++ [Ev.csHigh]

/-- Embeds `ST7789V2DMA::draw_entire_screen`: computes the full-screen window
(x: 0..W-1, y: OFFSET..OFFSET+H-1 in `u16` arithmetic), issues
CASET/RASET and RAMWR, then streams the buffer in 32 KiB chunks under a
single chip-select assertion. -/
def drawEntireScreenTr (W H OFFSET : Nat) (buffer : List Nat) : List Ev :=
  let xs := 0
  let xe := u16sub (u16of W) 1
  let ys := u16of OFFSET
  let ye := u16sub (u16add ys (u16of H)) 1
  csCommandDataSeqTr CASET (be16 xs ++ be16 xe) 1 1
    ++ csCommandDataSeqTr RASET (be16 ys ++ be16 ye) 1 1
    ++ csCommandTr RAMWR 10
    ++ [Ev.dcHigh, Ev.csLow]
    ++ (chunksOf (32 * 1024) buffer).map Ev.data
    ++ [Ev.csHigh]

/-- Embeds `ST7789V2DMA::draw_color_entire_screen`: fills a 2 KiB buffer with
`color as u8` (the low byte of the `u16` color), sets the window with
the literal call `set_size(0, 240, 0, 320)`, issues RAMWR, and sends the
2 KiB buffer `(W*H*2)/(2*1024) + 1` times under one chip-select. -/
def drawColorEntireScreenTr (W H OFFSET color : Nat) : List Ev :=
  setSizeTr OFFSET (u16of 0) (u16of 240) (u16of 0) (u16of 320)
    ++ beginDrawTr
    ++ [Ev.dcHigh, Ev.csLow]
    ++ (List.replicate (W * H * 2 / (2 * 1024) + 1)
          (Ev.data (List.replicate (2 * 1024) (color % 256))))
    ++ [Ev.csHigh]

/-- A rectangle in the `embedded_graphics` style: integer top-left corner
and unsigned size. -/
structure Rect where
  x : Int
  y : Int
  w : Nat
  h : Nat
deriving DecidableEq, Repr

/-- The `DrawTarget` bounding box of the driver: `Size::new(W, H)` at the
origin (`OriginDimensions::size` in `drawtarget.rs`). -/
def bbox (W H : Nat) : Rect := ⟨0, 0, W, H⟩

/-- Embeds the `embedded_graphics` `Rectangle::intersection` (external dependency of
`fill_contiguous`): when both rectangles are nonempty and overlap, the
rectangle between the component-wise max of the corners; otherwise a
zero-sized rectangle at `self`'s top-left. -/
def interRect (a b : Rect) : Rect :=
  if a.w ≠ 0 ∧ a.h ≠ 0 ∧ b.w ≠ 0 ∧ b.h ≠ 0 then
    if max a.x b.x ≤ min (a.x + a.w - 1) (b.x + b.w - 1) ∧
        max a.y b.y ≤ min (a.y + a.h - 1) (b.y + b.h - 1) then
      ⟨max a.x b.x, max a.y b.y,
        (min (a.x + a.w - 1) (b.x + b.w - 1) - max a.x b.x + 1).toNat,
        (min (a.y + a.h - 1) (b.y + b.h - 1) - max a.y b.y + 1).toNat⟩
    else ⟨a.x, a.y, 0, 0⟩
  else ⟨a.x, a.y, 0, 0⟩

/-- Embeds `Rgb565::to_be_bytes` of a pixel value held as a `u16`. -/
def encodeBE (c : Nat) : List Nat := [c / 256 % 256, c % 256]

/-- Modelled from the spec: `send_data_chunk`, the Chunked Streaming
Engine burst primitive used by `fill_contiguous` but absent from `src/`
(no definition of the `chunk_buffer` field or `send_data_chunk` method
exists in the repository sources). Per §4.4 of the spec it performs one
block transfer of the filled portion of the reusable chunk buffer —
"flushing (one burst) whenever the buffer fills; flush any remaining
partial buffer at the end" — touching neither chip-select nor the
data/command line ("asserted once before the first chunk and deasserted
once after the last chunk of a single draw call — not per chunk").
In this embedding a flush therefore emits `Ev.data buf` where `buf` is
the list of valid bytes staged so far.

`fillLoop C src k buf` runs the `for _ in 0..(width*height)` loop of
`fill_contiguous` for `k` pixels: if the staged bytes would overflow the
capacity (`idx + 2 > buf_len`), the buffer is flushed first; then the
next pixel is taken from the source (`clrs.next().unwrap()` — `none`
models the panic when the source is exhausted) and its two big-endian
bytes are appended.  Returns (bursts flushed inside the loop, bytes
still staged, remaining source). -/
def fillLoop (C : Nat) : List Nat → Nat → List Nat →
    Option (List (List Nat) × List Nat × List Nat)
  | src, 0, buf => some ([], buf, src)
  | src, k + 1, buf =>
    if buf.length + 2 > C then
      match src with
      | [] => none
      | p :: rest =>
        (fillLoop C rest k (encodeBE p)).map
          (fun out => (buf :: out.1, out.2.1, out.2.2))
    else
      match src with
      | [] => none
      | p :: rest => fillLoop C rest k (buf ++ encodeBE p)

/-- Result of a successful `fill_contiguous` call: the event trace and
the unconsumed remainder of the pixel source. -/
structure FillOut where
  trace : List Ev
  srcRest : List Nat
deriving DecidableEq, Repr

/-- Embeds `<ST7789V2DMA as DrawTarget>::fill_contiguous`
(`src/st7789v2/dma/drawtarget.rs`): intersect the area with the bounding
box, set the window from the intersection, issue RAMWR (`begin_draw`),
set data mode, select, stream `width*height` pixels through the chunk
buffer of capacity `C`, flush any remainder, deselect.  `none` models
the `unwrap` panic of an exhausted source. -/
def fillContiguous (W H OFFSET C : Nat) (area : Rect) (src : List Nat) :
    Option FillOut :=
  let d := interRect area (bbox W H)
  let startx : Int := d.x
  let starty : Int := d.y
  let width := d.w
  let height := d.h
  let endx : Int := startx + width - 1
  let endy : Int := starty + height - 1
  match fillLoop C src (width * height) [] with
  | none => none
  | some (bursts, fb, rest) =>
    some
      { trace :=
          setSizeTr OFFSET (toU16 startx) (toU16 endx) (toU16 starty) (toU16 endy)
            ++ beginDrawTr
            ++ [Ev.dcHigh, Ev.csLow]
            ++ bursts.map Ev.data
            ++ (if fb.length > 0 then [Ev.data fb] else [])
            ++ [Ev.csHigh],
        srcRest := rest }

/-! ### Trace observation functions -/

/-- Whether an event is the transfer of command byte `c`. -/
def isCmd (c : Nat) : Ev → Bool
  | Ev.cmd b => b == c
  | _ => false

/-- Number of transfers of command byte `c` in a trace. -/
def cmdCount (c : Nat) (tr : List Ev) : Nat := tr.countP (isCmd c)

/-- The trace suffix strictly after the first transfer of command `c`. -/
def afterCmd (c : Nat) (tr : List Ev) : List Ev :=
  (tr.dropWhile (fun e => !isCmd c e)).drop 1

/-- All data payloads of a trace, in order. -/
def dataBursts (tr : List Ev) : List (List Nat) :=
  tr.filterMap (fun e => match e with | Ev.data bs => some bs | _ => none)

/-- The payload bursts of the write-RAM phase: data transfers after the
RAMWR command. -/
def payloadBursts (tr : List Ev) : List (List Nat) :=
  dataBursts (afterCmd RAMWR tr)

/-- The address window transmitted by a trace, decoded from the first
two 4-byte data payloads (CASET then RASET):
`(x_start, x_end, y_start, y_end)`. -/
def windowOf (tr : List Ev) : Nat × Nat × Nat × Nat :=
  match dataBursts tr with
  | ca :: ra :: _ =>
    (dec16 (ca.take 2), dec16 (ca.drop 2), dec16 (ra.take 2), dec16 (ra.drop 2))
  | _ => (0, 0, 0, 0)

/-- Ceiling division, for stating the burst-count property. -/
def ceilDiv (a b : Nat) : Nat := (a + b - 1) / b

/-! ### DMA frame primitives with the transfer-error flag (for the
error-handling claims).  `send_command` / `send_data_u8` in
`src/st7789v2/dma/st7789v2dma.rs` run one DMA transfer, wait, inspect
`tf.is_transfer_error()`, emit a `debug!` diagnostic either way, release
the resources back into the handle and return — there is no error
return path in their types. -/

/-- The staging state of the DMA handle that the primitives mutate: the
contents of the two 1-byte staging buffers. -/
structure DmaBufs where
  cmdBuf : Nat
  dataBuf : Nat
deriving DecidableEq, Repr

/-- The diagnostic emitted after inspecting the transfer-error flag. -/
inductive Diag where
  | errorLog : Diag
  | successLog : Diag
deriving DecidableEq, Repr

/-- Embeds `ST7789V2DMA::send_command` with the transfer-error flag made an
explicit input: writes the command byte into `cmd_buf`, sets the
data/command line low, performs the transfer, inspects the error flag
and logs, releases the resources, returns.  Output: updated staging
state, event trace, diagnostic. -/
def sendCommandDma (s : DmaBufs) (c : Nat) (transferError : Bool) :
    DmaBufs × List Ev × Diag :=
  let s' := { s with cmdBuf := c % 256 }
  let tr := [Ev.dcLow, Ev.cmd (c % 256)]
  let diag := if transferError then Diag.errorLog else Diag.successLog
  (s', tr, diag)

/-- Embeds `ST7789V2DMA::send_data_u8` with the transfer-error flag explicit:
writes the byte into `data_buf`, sets the line high, transfers, inspects
the flag and logs, releases, returns. -/
def sendDataU8Dma (s : DmaBufs) (b : Nat) (transferError : Bool) :
    DmaBufs × List Ev × Diag :=
  let s' := { s with dataBuf := b % 256 }
  let tr := [Ev.dcHigh, Ev.data [b % 256]]
  let diag := if transferError then Diag.errorLog else Diag.successLog
  (s', tr, diag)

/-! ### The synchronous SPI variant (`src/st7789v2/spi.rs`).

Every pin drive and bus write can fail; the code propagates each failure
immediately with `map_err(...)?`.  The embedding lists the operations of
each public method in program order and runs them against an environment
`env : Nat → Bool` giving the success of the operation at each position;
execution stops at the first failure with the tagged error. -/

/-- One operation of the synchronous SPI driver. -/
inductive SpiOp where
  | rstLow : SpiOp
  | rstHigh : SpiOp
  | csLow : SpiOp
  | csHigh : SpiOp
  | dcLow : SpiOp
  | dcHigh : SpiOp
  | spiWrite : List Nat → SpiOp
  | delayMs : Nat → SpiOp
deriving DecidableEq, Repr

/-- The `Error` enum of `src/st7789v2/common.rs`. -/
inductive SpiErr where
  | Spi : SpiErr
  | CS : SpiErr
  | DC : SpiErr
  | RST : SpiErr
deriving DecidableEq, Repr

/-- The error tag a failing operation is mapped to (`map_err(Error::…)`),
`none` for the infallible delay. -/
def errOf : SpiOp → Option SpiErr
  | SpiOp.rstLow => some SpiErr.RST
  | SpiOp.rstHigh => some SpiErr.RST
  | SpiOp.csLow => some SpiErr.CS
  | SpiOp.csHigh => some SpiErr.CS
  | SpiOp.dcLow => some SpiErr.DC
  | SpiOp.dcHigh => some SpiErr.DC
  | SpiOp.spiWrite _ => some SpiErr.Spi
  | SpiOp.delayMs _ => none

/-- Run a fixed operation sequence with `?`-style early return: `k` is
the absolute position used to consult the environment; on the first
operation whose attempt fails, execution stops and the corresponding
tagged error is returned.  Returns (operations attempted, result). -/
def runSteps (env : Nat → Bool) : List SpiOp → Nat → List SpiOp × Option SpiErr
  | [], _ => ([], none)
  | op :: rest, k =>
    match errOf op with
    | none =>
      let out := runSteps env rest (k + 1)
      (op :: out.1, out.2)
    | some e =>
      if env k then
        let out := runSteps env rest (k + 1)
        (op :: out.1, out.2)
      else ([op], some e)

/-- Embeds `ST7789V2::send_command` (spi.rs): DC low, CS low, write the command
byte, CS high. -/
def sendCommandSpiSteps (c : Nat) : List SpiOp :=
  [SpiOp.dcLow, SpiOp.csLow, SpiOp.spiWrite [c], SpiOp.csHigh]

/-- Embeds `ST7789V2::send_data` (spi.rs): DC high, CS low, write the payload,
CS high. -/
def sendDataSpiSteps (bs : List Nat) : List SpiOp :=
  [SpiOp.dcHigh, SpiOp.csLow, SpiOp.spiWrite bs, SpiOp.csHigh]

/-- Embeds `ST7789V2::init` (spi.rs): hardware reset, software reset (150 ms),
sleep out (150 ms), color mode + 0x55 (10 ms), memory access control +
0x00 (10 ms), display on (10 ms).  Note: no inversion command, and each
settle delay runs after the primitive has already deasserted CS. -/
def initSpiSteps : List SpiOp :=
  [SpiOp.rstLow, SpiOp.delayMs 120, SpiOp.rstHigh, SpiOp.delayMs 150]
    ++ sendCommandSpiSteps SWRESET ++ [SpiOp.delayMs 150]
    ++ sendCommandSpiSteps SLPOUT ++ [SpiOp.delayMs 150]
    ++ sendCommandSpiSteps COLMOD ++ sendDataSpiSteps [0x55]
    ++ [SpiOp.delayMs 10]
    ++ sendCommandSpiSteps MADCTL ++ sendDataSpiSteps [0x00]
    ++ [SpiOp.delayMs 10]
    ++ sendCommandSpiSteps DISPON ++ [SpiOp.delayMs 10]

/-- Embeds `ST7789V2::draw_screen` (spi.rs): window from the constants
(y offset 20 hard-coded locally), CASET, RASET, RAMWR, then the whole
buffer in a single `send_data`. -/
def drawScreenSpiSteps (W H : Nat) (buffer : List Nat) : List SpiOp :=
  let yEnd := u16sub (u16add 20 (u16of H)) 1
  let xEnd := u16sub (u16of W) 1
  sendCommandSpiSteps CASET
    ++ sendDataSpiSteps (be16 0 ++ be16 xEnd)
    ++ sendCommandSpiSteps RASET
    ++ sendDataSpiSteps (be16 20 ++ be16 yEnd)
    ++ sendCommandSpiSteps RAMWR
    ++ sendDataSpiSteps buffer

/-- The level of the chip-select line after a run of SPI operations,
starting from level `init` (`true` = high/deasserted, `false` =
low/asserted). -/
def csLevelAfter (init : Bool) : List SpiOp → Bool
  | [] => init
  | SpiOp.csLow :: rest => csLevelAfter false rest
  | SpiOp.csHigh :: rest => csLevelAfter true rest
  | _ :: rest => csLevelAfter init rest

/-! ### Helper lemmas about trace observation -/

theorem dataBursts_append (l r : List Ev) :
    dataBursts (l ++ r) = dataBursts l ++ dataBursts r := by
  simp [dataBursts, List.filterMap_append]

theorem dataBursts_map_data (bl : List (List Nat)) :
    dataBursts (bl.map Ev.data) = bl := by
  induction bl with
  | nil => rfl
  | cons b bs ih => simp [dataBursts] at ih ⊢; exact ih

theorem afterCmd_append_of_clean (c : Nat) (l r : List Ev)
    (h : ∀ e ∈ l, isCmd c e = false) :
    afterCmd c (l ++ r) = afterCmd c r := by
  induction l with
  | nil => rfl
  | cons e es ih =>
    have he : isCmd c e = false := h e (by simp)
    simp only [List.cons_append, afterCmd, List.dropWhile]
    rw [he]
    simp only [Bool.not_false]
    exact ih (fun e' he' => h e' (by simp [he']))

theorem count_map_data (e : Ev) (bl : List (List Nat))
    (h : ∀ bs, e ≠ Ev.data bs) :
    (bl.map Ev.data).count e = 0 := by
  induction bl with
  | nil => rfl
  | cons b bs ih =>
    simp only [List.map_cons, List.count_cons, ih]
    have hne : Ev.data b ≠ e := Ne.symm (h b)
    simp [hne]

/-! ### The chunked-streaming loop: content and burst-structure lemmas -/

theorem encodeBE_length (c : Nat) : (encodeBE c).length = 2 := rfl

/-- Totality and content of `fillLoop`: with enough source pixels it
succeeds, consumes exactly `k` pixels, and the flushed bursts followed
by the still-staged bytes are the staged prefix followed by the
big-endian encoding of the `k` consumed pixels. -/
theorem fillLoop_spec (C : Nat) :
    ∀ (k : Nat) (src buf : List Nat), k ≤ src.length →
      ∃ bursts fb, fillLoop C src k buf = some (bursts, fb, src.drop k) ∧
        bursts.flatten ++ fb = buf ++ (src.take k).flatMap encodeBE := by
  intro k
  induction k with
  | zero =>
    intro src buf _
    exact ⟨[], buf, by simp [fillLoop], by simp⟩
  | succ k ih =>
    intro src buf hk
    match src with
    | [] => simp at hk
    | p :: rest =>
      have hk' : k ≤ rest.length := by simpa using hk
      by_cases hfull : buf.length + 2 > C
      · obtain ⟨bs, fb, hrun, hcontent⟩ := ih rest (encodeBE p) hk'
        refine ⟨buf :: bs, fb, ?_, ?_⟩
        · simp [fillLoop, hfull, hrun]
        · simp only [List.flatten_cons, List.append_assoc, hcontent,
            List.take_succ_cons, List.flatMap_cons]
      · obtain ⟨bs, fb, hrun, hcontent⟩ := ih rest (buf ++ encodeBE p) hk'
        refine ⟨bs, fb, ?_, ?_⟩
        · simp [fillLoop, hfull, hrun]
        · simp only [hcontent, List.take_succ_cons, List.flatMap_cons,
            List.append_assoc]

/-- Burst structure of `fillLoop` for an even capacity `C ≥ 2`, starting
from an even partial fill: every burst flushed inside the loop has
exactly `C` bytes, there are `(buf.length + 2*k - 2) / C` of them, and
the bytes still staged at the end make up the difference. -/
theorem fillLoop_bursts (C : Nat) (hC2 : 2 ≤ C) (hCe : C % 2 = 0) :
    ∀ (k : Nat) (src buf fb rest : List Nat) (bursts : List (List Nat)),
      buf.length % 2 = 0 → buf.length ≤ C →
      fillLoop C src k buf = some (bursts, fb, rest) →
      bursts.map List.length = List.replicate ((buf.length + 2 * k - 2) / C) C ∧
        fb.length = buf.length + 2 * k - C * ((buf.length + 2 * k - 2) / C) := by
  intro k
  induction k with
  | zero =>
    intro src buf fb rest bursts _ hle hrun
    simp only [fillLoop, Option.some.injEq, Prod.mk.injEq] at hrun
    obtain ⟨hb, hf, _⟩ := hrun
    have hdiv : (buf.length - 2) / C = 0 :=
      Nat.div_eq_of_lt (by omega)
    subst hb hf
    simp [hdiv]
  | succ k ih =>
    intro src buf fb rest bursts hpar hle hrun
    match src with
    | [] =>
      by_cases hfull : buf.length + 2 > C <;>
        simp [fillLoop, hfull] at hrun
    | p :: tl =>
      by_cases hfull : buf.length + 2 > C
      · have hbuf : buf.length = C := by omega
        simp only [fillLoop, if_pos hfull, Option.map_eq_some'] at hrun
        obtain ⟨⟨bs', fb', r'⟩, hrun', heq⟩ := hrun
        simp only [Prod.mk.injEq] at heq
        obtain ⟨hb, hf, hr⟩ := heq
        subst hb hf hr
        have henc : (encodeBE p).length % 2 = 0 := by simp [encodeBE_length]
        have hencle : (encodeBE p).length ≤ C := by
          rw [encodeBE_length]; omega
        obtain ⟨hmap, hlen⟩ := ih tl (encodeBE p) fb' r' bs' henc hencle hrun'
        rw [encodeBE_length] at hmap hlen
        have h2k : 2 + 2 * k - 2 = 2 * k := by omega
        rw [h2k] at hmap hlen
        have hdivstep : (buf.length + 2 * (k + 1) - 2) / C = (2 * k) / C + 1 := by
          have h1 : buf.length + 2 * (k + 1) - 2 = 2 * k + C := by omega
          rw [h1, Nat.add_div_right _ (by omega)]
        constructor
        · rw [hdivstep]
          simp only [List.map_cons, hmap, List.replicate_succ, hbuf]
        · rw [hlen, hdivstep]
          have hexp : C * (2 * k / C + 1) = C * (2 * k / C) + C := by ring
          have hmul : C * ((2 * k) / C) ≤ 2 * k := by
            calc C * ((2 * k) / C) = (2 * k) / C * C := Nat.mul_comm _ _
              _ ≤ 2 * k := Nat.div_mul_le_self _ _
          omega
      · simp only [fillLoop, if_neg hfull] at hrun
        have hpar' : (buf ++ encodeBE p).length % 2 = 0 := by
          simp [encodeBE_length]; omega
        have hle' : (buf ++ encodeBE p).length ≤ C := by
          simp only [List.length_append, encodeBE_length]; omega
        obtain ⟨hmap, hlen⟩ := ih tl (buf ++ encodeBE p) fb rest bursts hpar' hle' hrun
        have harith : (buf ++ encodeBE p).length + 2 * k = buf.length + 2 * (k + 1) := by
          simp only [List.length_append, encodeBE_length]; omega
        rw [harith] at hmap hlen
        exact ⟨hmap, hlen⟩

/-- Arithmetic of the chunked partition for even byte counts and even
capacities: the trailing burst has `a % C` bytes (`C` when `C ∣ a`), and
the total number of bursts is the ceiling of `a / C`. -/
theorem chunk_arith (c n : Nat) (hc : 1 ≤ c) (hn : 1 ≤ n) :
    2 * n - 2 * c * ((2 * n - 2) / (2 * c)) =
      (if (2 * n) % (2 * c) = 0 then 2 * c else (2 * n) % (2 * c)) ∧
    (2 * n - 2) / (2 * c) + 1 = (2 * n + 2 * c - 1) / (2 * c) := by
  have h2c : 0 < 2 * c := by omega
  have hmod : (2 * n) % (2 * c) = 2 * (n % c) := Nat.mul_mod_mul_left 2 n c
  have hdiv2 : (2 * n - 2) / (2 * c) = (n - 1) / c := by
    have h1 : 2 * n - 2 = 2 * (n - 1) := by omega
    rw [h1, Nat.mul_div_mul_left _ _ (by omega : 0 < 2)]
  have hqr : c * (n / c) + n % c = n := Nat.div_add_mod n c
  set p := n / c with hp
  set s := n % c with hs
  have hslt : s < c := Nat.mod_lt _ (by omega)
  by_cases hs0 : s = 0
  · have hp1 : 1 ≤ p := by
      rcases Nat.eq_zero_or_pos p with h0 | h1
      · exfalso; rw [h0, hs0] at hqr; simp at hqr; omega
      · exact h1
    obtain ⟨q, hpq⟩ : ∃ q, p = q + 1 := ⟨p - 1, by omega⟩
    have hcp : c * q + c = n := by
      rw [hpq, hs0] at hqr
      have hr : c * (q + 1) = c * q + c := by ring
      omega
    have hdivn : (n - 1) / c = q := by
      have h1 : n - 1 = c * q + (c - 1) := by omega
      rw [h1, Nat.mul_add_div (by omega), Nat.div_eq_of_lt (by omega)]
      omega
    constructor
    · rw [hdiv2, hdivn, hmod, hs0]
      have h0 : (2 * 0 : Nat) = 0 := rfl
      rw [h0, if_pos rfl]
      have hb : 2 * c * q = 2 * (c * q) := by ring
      omega
    · rw [hdiv2, hdivn]
      have hb : 2 * c * (q + 1) = 2 * (c * q) + 2 * c := by ring
      have h1 : 2 * n + 2 * c - 1 = 2 * c * (q + 1) + (2 * c - 1) := by omega
      rw [h1, Nat.mul_add_div h2c, Nat.div_eq_of_lt (by omega)]
  · have hdivn : (n - 1) / c = p := by
      have h1 : n - 1 = c * p + (s - 1) := by omega
      rw [h1, Nat.mul_add_div (by omega), Nat.div_eq_of_lt (by omega)]
      omega
    constructor
    · rw [hdiv2, hdivn, hmod]
      have hif : ¬(2 * s = 0) := by omega
      rw [if_neg hif]
      have hb : 2 * c * p = 2 * (c * p) := by ring
      omega
    · rw [hdiv2, hdivn]
      have hb : 2 * c * (p + 1) = 2 * (c * p) + 2 * c := by ring
      have h1 : 2 * n + 2 * c - 1 = 2 * c * (p + 1) + (2 * s - 1) := by omega
      rw [h1, Nat.mul_add_div h2c, Nat.div_eq_of_lt (by omega)]

/-- A nonempty rectangle fully inside the bounding box is its own
intersection with it. -/
theorem interRect_of_inside (x y : Int) (w h W H : Nat)
    (hw : 0 < w) (hh : 0 < h) (hx : 0 ≤ x) (hy : 0 ≤ y)
    (hxw : x + w ≤ (W : Int)) (hyh : y + h ≤ (H : Int)) :
    interRect ⟨x, y, w, h⟩ (bbox W H) = ⟨x, y, w, h⟩ := by
  simp only [interRect, bbox]
  split_ifs with h1 h2
  · simp only [Rect.mk.injEq]
    refine ⟨by omega, by omega, by omega, by omega⟩
  · exfalso
    push_neg at h2
    omega
  · exfalso
    apply h1
    refine ⟨by omega, by omega, by omega, by omega⟩

theorem isCmd_csSeq (c c' : Nat) (hne : (c' == c) = false)
    (payload : List Nat) (d1 d2 : Nat) :
    ∀ e ∈ csCommandDataSeqTr c' payload d1 d2, isCmd c e = false := by
  intro e he
  simp only [csCommandDataSeqTr, sendCommandTr, sendAddrDataTr,
    List.append_assoc, List.cons_append, List.nil_append, List.mem_cons,
    List.not_mem_nil, or_false] at he
  rcases he with rfl | rfl | rfl | rfl | rfl | rfl | rfl | rfl <;>
    simp [isCmd, hne]

theorem isCmd_setSize (c : Nat) (h1 : (CASET == c) = false)
    (h2 : (RASET == c) = false) (OFFSET xs xe ys ye : Nat) :
    ∀ e ∈ setSizeTr OFFSET xs xe ys ye, isCmd c e = false := by
  intro e he
  simp only [setSizeTr, List.mem_append] at he
  rcases he with he | he
  · exact isCmd_csSeq c CASET h1 _ _ _ e he
  · exact isCmd_csSeq c RASET h2 _ _ _ e he

/-- The write-RAM payload bursts of a trace of the shape produced by
`fill_contiguous` and `draw_color_entire_screen`: whatever data events
follow the `[dcHigh, csLow]` marker after `begin_draw`. -/
theorem payloadBursts_shape (OFFSET xs xe ys ye : Nat) (P : List Ev) :
    payloadBursts (setSizeTr OFFSET xs xe ys ye ++ beginDrawTr
        ++ [Ev.dcHigh, Ev.csLow] ++ P ++ [Ev.csHigh]) =
      dataBursts P := by
  unfold payloadBursts
  simp only [List.append_assoc]
  rw [afterCmd_append_of_clean RAMWR _ _
    (isCmd_setSize RAMWR (by decide) (by decide) OFFSET xs xe ys ye)]
  simp only [beginDrawTr, csCommandTr, sendCommandTr, afterCmd,
    List.cons_append, List.nil_append, List.dropWhile]
  norm_num [isCmd]
  simp [dataBursts]

/-- Successful run of `fill_contiguous`: with at least as many source
pixels as the clipped area has, the call succeeds, consumes exactly the
clipped pixel count from the source, and produces the
window-set/RAMWR/payload trace with the loop's bursts. -/
theorem fillContiguous_run (W H OFFSET C : Nat) (area : Rect) (src : List Nat)
    (hsrc : (interRect area (bbox W H)).w * (interRect area (bbox W H)).h
      ≤ src.length) :
    ∃ bursts fb,
      fillLoop C src
          ((interRect area (bbox W H)).w * (interRect area (bbox W H)).h) []
        = some (bursts, fb,
            src.drop ((interRect area (bbox W H)).w * (interRect area (bbox W H)).h)) ∧
      bursts.flatten ++ fb =
        (src.take ((interRect area (bbox W H)).w * (interRect area (bbox W H)).h)).flatMap
          encodeBE ∧
      fillContiguous W H OFFSET C area src = some
        { trace :=
            setSizeTr OFFSET
              (toU16 (interRect area (bbox W H)).x)
              (toU16 ((interRect area (bbox W H)).x + (interRect area (bbox W H)).w - 1))
              (toU16 (interRect area (bbox W H)).y)
              (toU16 ((interRect area (bbox W H)).y + (interRect area (bbox W H)).h - 1))
              ++ beginDrawTr
              ++ [Ev.dcHigh, Ev.csLow]
              ++ bursts.map Ev.data
              ++ (if fb.length > 0 then [Ev.data fb] else [])
              ++ [Ev.csHigh],
          srcRest :=
            src.drop ((interRect area (bbox W H)).w * (interRect area (bbox W H)).h) } := by
  obtain ⟨bursts, fb, hrun, hcontent⟩ :=
    fillLoop_spec C ((interRect area (bbox W H)).w * (interRect area (bbox W H)).h)
      src [] hsrc
  refine ⟨bursts, fb, hrun, by simpa using hcontent, ?_⟩
  simp only [fillContiguous, hrun]

theorem cmdCount_append (c : Nat) (l r : List Ev) :
    cmdCount c (l ++ r) = cmdCount c l + cmdCount c r := by
  simp [cmdCount, List.countP_append]

theorem cmdCount_map_data (c : Nat) (bl : List (List Nat)) :
    cmdCount c (bl.map Ev.data) = 0 := by
  induction bl with
  | nil => rfl
  | cons b bs ih =>
    simp only [List.map_cons, cmdCount, List.countP_cons] at ih ⊢
    simp [isCmd, ih]

theorem cmdCount_csSeq (c c' : Nat) (p : List Nat) (d1 d2 : Nat) :
    cmdCount c (csCommandDataSeqTr c' p d1 d2) = if c' == c then 1 else 0 := by
  simp [cmdCount, csCommandDataSeqTr, sendCommandTr, sendAddrDataTr,
    List.countP_cons, List.countP_append, isCmd]

theorem cmdCount_csCommandTr (c c' d : Nat) :
    cmdCount c (csCommandTr c' d) = if c' == c then 1 else 0 := by
  simp [cmdCount, csCommandTr, sendCommandTr, List.countP_cons,
    List.countP_append, isCmd]

theorem cmdCount_setSize (c OFFSET xs xe ys ye : Nat) :
    cmdCount c (setSizeTr OFFSET xs xe ys ye) =
      (if CASET == c then 1 else 0) + (if RASET == c then 1 else 0) := by
  simp [setSizeTr, cmdCount_append, cmdCount_csSeq]

theorem flatMap_encodeBE_length (l : List Nat) :
    (l.flatMap encodeBE).length = 2 * l.length := by
  induction l with
  | nil => rfl
  | cons p ps ih =>
    simp only [List.flatMap_cons, List.length_append, encodeBE_length,
      List.length_cons, ih]
    omega

/-- C1 (amended). For an even chunk capacity `C ≥ 2` (the spec's
power-of-two capacity), every nonempty rectangle fully inside the
bounding box and every source with at least `w*h` pixels:
`fill_contiguous` succeeds, issues exactly one CASET, one RASET and one
write-RAM command, and its write-RAM payload carries exactly `w*h*2`
bytes partitioned into `ceil(w*h*2 / C)` bursts of size at most `C`,
the last burst sized `(w*h*2) mod C` (or `C` when divisible); a fill of
exactly `C` bytes is a single burst.  (As frozen, the claim also
asserted a last burst of length 1 for fills of `C+1` bytes; payload
sizes are always even, so for even `C` no such fill exists, and for odd
`C` the code produces a last burst of length 2 — see the
counterexample.) -/
theorem claim_C1 (W H OFFSET C : Nat) (x y : Int) (w h : Nat) (src : List Nat)
    (hC2 : 2 ≤ C) (hCe : C % 2 = 0)
    (hw : 0 < w) (hh : 0 < h) (hx : 0 ≤ x) (hy : 0 ≤ y)
    (hxw : x + w ≤ (W : Int)) (hyh : y + h ≤ (H : Int))
    (hsrc : w * h ≤ src.length) :
    ∃ out, fillContiguous W H OFFSET C ⟨x, y, w, h⟩ src = some out ∧
      cmdCount CASET out.trace = 1 ∧
      cmdCount RASET out.trace = 1 ∧
      cmdCount RAMWR out.trace = 1 ∧
      (payloadBursts out.trace).flatten.length = w * h * 2 ∧
      (payloadBursts out.trace).length = ceilDiv (w * h * 2) C ∧
      (∀ b ∈ payloadBursts out.trace, b.length ≤ C) ∧
      (∃ lastb, (payloadBursts out.trace).getLast? = some lastb ∧
        lastb.length = if w * h * 2 % C = 0 then C else w * h * 2 % C) ∧
      (w * h * 2 = C → (payloadBursts out.trace).length = 1) := by
  have hinter : interRect ⟨x, y, w, h⟩ (bbox W H) = ⟨x, y, w, h⟩ :=
    interRect_of_inside x y w h W H hw hh hx hy hxw hyh
  obtain ⟨bursts, fb, hrun, hcontent, hfill⟩ :=
    fillContiguous_run W H OFFSET C ⟨x, y, w, h⟩ src (by rw [hinter]; exact hsrc)
  rw [hinter] at hrun hcontent hfill
  dsimp only at hrun hcontent hfill
  obtain ⟨hmap, hlen⟩ :=
    fillLoop_bursts C hC2 hCe (w * h) src [] fb (src.drop (w * h)) bursts
      (by simp) (by simp) hrun
  simp only [List.length_nil, Nat.zero_add] at hmap hlen
  obtain ⟨c, rfl⟩ : ∃ c, C = 2 * c := ⟨C / 2, by omega⟩
  have hc1 : 1 ≤ c := by omega
  have hn1 : 1 ≤ w * h := Nat.one_le_iff_ne_zero.mpr (by positivity)
  obtain ⟨hlast_eq, hcount_eq⟩ := chunk_arith c (w * h) hc1 hn1
  rw [hlast_eq] at hlen
  have hfbpos : 0 < fb.length := by
    rw [hlen]
    split_ifs with hz
    · omega
    · omega
  have hm : bursts.length = (2 * (w * h) - 2) / (2 * c) := by
    have := congrArg List.length hmap
    simpa using this
  have hite : (if fb.length > 0 then [Ev.data fb] else []) = [Ev.data fb] :=
    if_pos hfbpos
  have hpb : payloadBursts
      (setSizeTr OFFSET (toU16 x) (toU16 (x + ↑w - 1)) (toU16 y) (toU16 (y + ↑h - 1))
        ++ beginDrawTr ++ [Ev.dcHigh, Ev.csLow]
        ++ bursts.map Ev.data
        ++ (if fb.length > 0 then [Ev.data fb] else [])
        ++ [Ev.csHigh]) = bursts ++ [fb] := by
    have hassoc :
        setSizeTr OFFSET (toU16 x) (toU16 (x + ↑w - 1)) (toU16 y) (toU16 (y + ↑h - 1))
          ++ beginDrawTr ++ [Ev.dcHigh, Ev.csLow]
          ++ bursts.map Ev.data
          ++ (if fb.length > 0 then [Ev.data fb] else [])
          ++ [Ev.csHigh]
        = setSizeTr OFFSET (toU16 x) (toU16 (x + ↑w - 1)) (toU16 y) (toU16 (y + ↑h - 1))
          ++ beginDrawTr ++ [Ev.dcHigh, Ev.csLow]
          ++ (bursts.map Ev.data ++ (if fb.length > 0 then [Ev.data fb] else []))
          ++ [Ev.csHigh] := by
      simp [List.append_assoc]
    rw [hassoc, payloadBursts_shape, dataBursts_append, dataBursts_map_data, hite]
    rfl
  have hcmd : ∀ cnum : Nat,
      cmdCount cnum
        (setSizeTr OFFSET (toU16 x) (toU16 (x + ↑w - 1)) (toU16 y) (toU16 (y + ↑h - 1))
          ++ beginDrawTr ++ [Ev.dcHigh, Ev.csLow]
          ++ bursts.map Ev.data
          ++ (if fb.length > 0 then [Ev.data fb] else [])
          ++ [Ev.csHigh])
      = ((if CASET == cnum then 1 else 0) + (if RASET == cnum then 1 else 0))
        + (if RAMWR == cnum then 1 else 0) := by
    intro cnum
    rw [cmdCount_append, cmdCount_append, cmdCount_append, cmdCount_append,
      cmdCount_append, hite, cmdCount_setSize, cmdCount_map_data]
    have h1 : cmdCount cnum beginDrawTr = if RAMWR == cnum then 1 else 0 :=
      cmdCount_csCommandTr cnum RAMWR 10
    have h2 : cmdCount cnum [Ev.dcHigh, Ev.csLow] = 0 := by
      simp [cmdCount, List.countP_cons, isCmd]
    have h3 : cmdCount cnum [Ev.data fb] = 0 := by
      simp [cmdCount, List.countP_cons, isCmd]
    have h4 : cmdCount cnum [Ev.csHigh] = 0 := by
      simp [cmdCount, List.countP_cons, isCmd]
    rw [h1, h2, h3, h4]
    omega
  have hbl : (bursts ++ [fb]).length = (2 * (w * h) - 2) / (2 * c) + 1 := by
    simp [hm]
  refine ⟨_, hfill, ?_, ?_, ?_, ?_, ?_, ?_, ?_, ?_⟩
  · rw [hcmd CASET]; decide
  · rw [hcmd RASET]; decide
  · rw [hcmd RAMWR]; decide
  · rw [hpb]
    have hfl : (bursts ++ [fb]).flatten = bursts.flatten ++ fb := by
      simp
    rw [hfl, hcontent, flatMap_encodeBE_length, List.length_take,
      Nat.min_eq_left hsrc]
    ring
  · rw [hpb, hbl, hcount_eq]
    have h2n : w * h * 2 = 2 * (w * h) := by ring
    rw [ceilDiv, h2n]
  · rw [hpb]
    intro b hb
    rcases List.mem_append.mp hb with hb | hb
    · have : b.length ∈ bursts.map List.length := List.mem_map_of_mem _ hb
      rw [hmap] at this
      have := List.eq_of_mem_replicate this
      omega
    · have hbfb : b = fb := by simpa using hb
      subst hbfb
      rw [hlen]
      split_ifs with hz
      · omega
      · have : 2 * (w * h) % (2 * c) < 2 * c := Nat.mod_lt _ (by omega)
        omega
  · rw [hpb]
    refine ⟨fb, List.getLast?_concat _, ?_⟩
    rw [hlen]
    have h2n : w * h * 2 = 2 * (w * h) := by ring
    rw [h2n]
  · intro hCeq
    rw [hpb, hbl]
    have h2n : 2 * (w * h) = 2 * c := by omega
    rw [h2n, Nat.div_eq_of_lt (by omega)]

/-- Witness for C1: a 1×2 fill on the default panel with capacity
`C = 4` (count `= C`, one full burst). -/
theorem claim_C1_witness :
    ∃ out, fillContiguous 240 280 20 4 ⟨0, 0, 1, 2⟩ [1, 2] = some out ∧
      cmdCount CASET out.trace = 1 ∧
      cmdCount RASET out.trace = 1 ∧
      cmdCount RAMWR out.trace = 1 ∧
      (payloadBursts out.trace).flatten.length = 1 * 2 * 2 ∧
      (payloadBursts out.trace).length = ceilDiv (1 * 2 * 2) 4 ∧
      (∀ b ∈ payloadBursts out.trace, b.length ≤ 4) ∧
      (∃ lastb, (payloadBursts out.trace).getLast? = some lastb ∧
        lastb.length = if 1 * 2 * 2 % 4 = 0 then 4 else 1 * 2 * 2 % 4) ∧
      (1 * 2 * 2 = 4 → (payloadBursts out.trace).length = 1) :=
  claim_C1 240 280 20 4 0 0 1 2 [1, 2] (by decide) (by decide) (by decide)
    (by decide) (by decide) (by decide) (by decide) (by decide) (by decide)

/-- C1 (counterexample). With an odd chunk capacity `C = 5` and a
3×1 fill (payload 6 bytes `= C + 1`), the code produces bursts of
lengths `[4, 2]`: the last burst is not `count mod C = 1` and the
second burst of the `C+1`-byte fill has length 2, not 1, refuting the
claim's burst-size formula in its full generality. -/
theorem claim_C1_counterexample :
    (fillContiguous 240 280 20 5 ⟨0, 0, 3, 1⟩ [1, 2, 3]).map
        (fun out => (payloadBursts out.trace).map List.length) = some [4, 2] ∧
      3 * 1 * 2 = 5 + 1 ∧ 3 * 1 * 2 % 5 = 1 ∧ (2 : Nat) ≠ 1 := by
  decide

theorem dec16_be16 (v : Nat) : dec16 (be16 v) = v % 65536 := by
  simp only [be16, dec16]
  omega

theorem dataBursts_setSize (OFFSET xs xe ys ye : Nat) :
    dataBursts (setSizeTr OFFSET xs xe ys ye) =
      [be16 xs ++ be16 xe,
       be16 (u16add ys (u16of OFFSET)) ++ be16 (u16add ye (u16of OFFSET))] := by
  simp [setSizeTr, csCommandDataSeqTr, sendCommandTr, sendAddrDataTr, dataBursts]

theorem windowOf_setSize (OFFSET xs xe ys ye : Nat) (rest : List Ev) :
    windowOf (setSizeTr OFFSET xs xe ys ye ++ rest) =
      (xs % 65536, xe % 65536,
        u16add ys (u16of OFFSET) % 65536, u16add ye (u16of OFFSET) % 65536) := by
  have hx : (be16 xs ++ be16 xe).take 2 = be16 xs := by
    simp [be16]
  have hx2 : (be16 xs ++ be16 xe).drop 2 = be16 xe := by
    simp [be16]
  have hy : (be16 (u16add ys (u16of OFFSET)) ++ be16 (u16add ye (u16of OFFSET))).take 2
      = be16 (u16add ys (u16of OFFSET)) := by
    simp [be16]
  have hy2 : (be16 (u16add ys (u16of OFFSET)) ++ be16 (u16add ye (u16of OFFSET))).drop 2
      = be16 (u16add ye (u16of OFFSET)) := by
    simp [be16]
  rw [windowOf, dataBursts_append, dataBursts_setSize]
  simp only [List.cons_append, List.nil_append]
  rw [hx, hx2, hy, hy2, dec16_be16, dec16_be16, dec16_be16, dec16_be16]

/-- The payload bursts of a `fill_contiguous`-shaped trace are the loop
bursts followed by the partial flush if it is nonempty. -/
theorem payloadBursts_fillTrace (OFFSET a b c' d' : Nat)
    (bursts : List (List Nat)) (fb : List Nat) :
    payloadBursts (setSizeTr OFFSET a b c' d' ++ beginDrawTr ++ [Ev.dcHigh, Ev.csLow]
        ++ bursts.map Ev.data ++ (if fb.length > 0 then [Ev.data fb] else [])
        ++ [Ev.csHigh])
      = bursts ++ (if fb.length > 0 then [fb] else []) := by
  have hassoc :
      setSizeTr OFFSET a b c' d' ++ beginDrawTr ++ [Ev.dcHigh, Ev.csLow]
        ++ bursts.map Ev.data ++ (if fb.length > 0 then [Ev.data fb] else [])
        ++ [Ev.csHigh]
      = setSizeTr OFFSET a b c' d' ++ beginDrawTr ++ [Ev.dcHigh, Ev.csLow]
        ++ (bursts.map Ev.data ++ (if fb.length > 0 then [Ev.data fb] else []))
        ++ [Ev.csHigh] := by
    simp [List.append_assoc]
  rw [hassoc, payloadBursts_shape, dataBursts_append, dataBursts_map_data]
  split_ifs <;> simp [dataBursts]

/-- A nonempty intersection with the bounding box lies inside it. -/
theorem interRect_bounds (a : Rect) (W H : Nat)
    (hne : (interRect a (bbox W H)).w ≠ 0) :
    0 ≤ (interRect a (bbox W H)).x ∧
      (interRect a (bbox W H)).x + (interRect a (bbox W H)).w ≤ (W : Int) ∧
      0 ≤ (interRect a (bbox W H)).y ∧
      (interRect a (bbox W H)).y + (interRect a (bbox W H)).h ≤ (H : Int) := by
  simp only [interRect, bbox] at hne ⊢
  split_ifs at hne ⊢ with h1 h2
  · simp only at hne ⊢
    omega
  · exact absurd rfl hne
  · exact absurd rfl hne

/-- C2 (amended). For any rectangle whose intersection with the
bounding box is nonempty and any source covering the clipped pixel
count: the transmitted window is exactly the intersection (x from
`d.x` to `d.x + d.w - 1`, y the same plus the vertical offset), the
transmitted payload is the big-endian encoding of the first
`d.w * d.h` source pixels, and the source is consumed exactly
`d.w * d.h` times — the clipped pixel count, not the unclipped
`w(R)*h(R)` of the frozen claim (see the counterexample). -/
theorem claim_C2 (W H OFFSET C : Nat) (area : Rect) (src : List Nat)
    (hW : W ≤ 65535) (hHO : H + OFFSET ≤ 65535)
    (hne : 0 < (interRect area (bbox W H)).w * (interRect area (bbox W H)).h)
    (hsrc : (interRect area (bbox W H)).w * (interRect area (bbox W H)).h
      ≤ src.length) :
    ∃ out, fillContiguous W H OFFSET C area src = some out ∧
      src.length - out.srcRest.length =
        (interRect area (bbox W H)).w * (interRect area (bbox W H)).h ∧
      out.srcRest =
        src.drop ((interRect area (bbox W H)).w * (interRect area (bbox W H)).h) ∧
      (payloadBursts out.trace).flatten =
        (src.take ((interRect area (bbox W H)).w * (interRect area (bbox W H)).h)).flatMap
          encodeBE ∧
      windowOf out.trace =
        ((interRect area (bbox W H)).x.toNat,
          ((interRect area (bbox W H)).x + (interRect area (bbox W H)).w - 1).toNat,
          (interRect area (bbox W H)).y.toNat + OFFSET,
          ((interRect area (bbox W H)).y + (interRect area (bbox W H)).h - 1).toNat
            + OFFSET) := by
  obtain ⟨bursts, fb, hrun, hcontent, hfill⟩ :=
    fillContiguous_run W H OFFSET C area src hsrc
  have hw0 : (interRect area (bbox W H)).w ≠ 0 := by
    intro h0
    rw [h0] at hne
    simp at hne
  have hh0 : (interRect area (bbox W H)).h ≠ 0 := by
    intro h0
    rw [h0] at hne
    simp at hne
  obtain ⟨hbx, hbxw, hby, hbyh⟩ := interRect_bounds area W H hw0
  refine ⟨_, hfill, ?_, rfl, ?_, ?_⟩
  · simp only [List.length_drop]
    omega
  · rw [payloadBursts_fillTrace]
    split_ifs with hfb
    · simp only [List.flatten_append, List.flatten_cons, List.flatten_nil,
        List.append_nil]
      exact hcontent
    · have hfbe : fb = [] := by
        rcases fb with _ | ⟨b, bs⟩
        · rfl
        · simp at hfb
      rw [hfbe, List.append_nil] at hcontent
      simpa using hcontent
  · dsimp only
    simp only [List.append_assoc]
    rw [windowOf_setSize]
    have hx1 : toU16 (interRect area (bbox W H)).x % 65536
        = (interRect area (bbox W H)).x.toNat := by
      simp only [toU16]
      omega
    have hx2 : toU16 ((interRect area (bbox W H)).x + (interRect area (bbox W H)).w - 1)
        % 65536
        = ((interRect area (bbox W H)).x + (interRect area (bbox W H)).w - 1).toNat := by
      simp only [toU16]
      omega
    have hy1 : u16add (toU16 (interRect area (bbox W H)).y) (u16of OFFSET) % 65536
        = (interRect area (bbox W H)).y.toNat + OFFSET := by
      simp only [toU16, u16add, u16of]
      omega
    have hy2 : u16add
        (toU16 ((interRect area (bbox W H)).y + (interRect area (bbox W H)).h - 1))
        (u16of OFFSET) % 65536
        = ((interRect area (bbox W H)).y + (interRect area (bbox W H)).h - 1).toNat
          + OFFSET := by
      simp only [toU16, u16add, u16of]
      omega
    rw [hx1, hx2, hy1, hy2]

/-- Witness for C2: a 2×1 rectangle starting one column left of the
panel, clipped to 1×1. -/
theorem claim_C2_witness :
    ∃ out, fillContiguous 240 280 20 4096 ⟨-1, 0, 2, 1⟩ [7, 8] = some out ∧
      (List.length [7, 8]) - out.srcRest.length =
        (interRect ⟨-1, 0, 2, 1⟩ (bbox 240 280)).w
          * (interRect ⟨-1, 0, 2, 1⟩ (bbox 240 280)).h ∧
      out.srcRest =
        List.drop ((interRect ⟨-1, 0, 2, 1⟩ (bbox 240 280)).w
          * (interRect ⟨-1, 0, 2, 1⟩ (bbox 240 280)).h) [7, 8] ∧
      (payloadBursts out.trace).flatten =
        (List.take ((interRect ⟨-1, 0, 2, 1⟩ (bbox 240 280)).w
          * (interRect ⟨-1, 0, 2, 1⟩ (bbox 240 280)).h) [7, 8]).flatMap encodeBE ∧
      windowOf out.trace =
        ((interRect ⟨-1, 0, 2, 1⟩ (bbox 240 280)).x.toNat,
          ((interRect ⟨-1, 0, 2, 1⟩ (bbox 240 280)).x
            + (interRect ⟨-1, 0, 2, 1⟩ (bbox 240 280)).w - 1).toNat,
          (interRect ⟨-1, 0, 2, 1⟩ (bbox 240 280)).y.toNat + 20,
          ((interRect ⟨-1, 0, 2, 1⟩ (bbox 240 280)).y
            + (interRect ⟨-1, 0, 2, 1⟩ (bbox 240 280)).h - 1).toNat + 20) :=
  claim_C2 240 280 20 4096 ⟨-1, 0, 2, 1⟩ [7, 8] (by decide) (by decide)
    (by decide) (by decide)

/-- C2 (counterexample). A 2×1 rectangle with one column clipped
away: the source holds 2 pixels but only 1 is consumed — the pixel
corresponding to the clipped-away column is *not* consumed, refuting
the claim that the source advances `w(R)*h(R)` (unclipped) times. -/
theorem claim_C2_counterexample :
    (fillContiguous 240 280 20 4096 ⟨-1, 0, 2, 1⟩ [7, 8]).map
        (fun out => (out.srcRest, (payloadBursts out.trace).flatten))
      = some ([8], [0, 7]) ∧
      (List.length [7, 8]) - (List.length [8]) = 1 ∧ (1 : Nat) ≠ 2 * 1 := by
  decide

/-- C3 (amended). The exact init sequences of the two variants.
The DMA variant performs the claimed steps in the claimed order with
the claimed delays, except that the color-mode and memory-access
data bytes are sent under their own chip-select assertion (the command
settles 1 ms under one assertion, the data byte 10 ms under another).
The synchronous SPI variant diverges from the claim: it settles 150 ms
(not 120 ms) after sleep-out, sends no inversion-on command at all,
settles 10 ms (not 50 ms) after display-on, and each primitive
deasserts chip-select *before* its settle delay. -/
theorem claim_C3 :
    initDmaTr =
      [Ev.rstLow, Ev.delayMs 120, Ev.rstHigh, Ev.delayMs 150,
       Ev.csLow, Ev.dcLow, Ev.cmd 0x01, Ev.delayMs 150, Ev.csHigh,
       Ev.csLow, Ev.dcLow, Ev.cmd 0x11, Ev.delayMs 120, Ev.csHigh,
       Ev.csLow, Ev.dcLow, Ev.cmd 0x3A, Ev.delayMs 1, Ev.csHigh,
       Ev.csLow, Ev.dcHigh, Ev.data [0x55], Ev.delayMs 10, Ev.csHigh,
       Ev.csLow, Ev.dcLow, Ev.cmd 0x36, Ev.delayMs 1, Ev.csHigh,
       Ev.csLow, Ev.dcHigh, Ev.data [0x00], Ev.delayMs 10, Ev.csHigh,
       Ev.csLow, Ev.dcLow, Ev.cmd 0x21, Ev.delayMs 1, Ev.csHigh,
       Ev.csLow, Ev.dcLow, Ev.cmd 0x29, Ev.delayMs 50, Ev.csHigh] ∧
    initSpiSteps =
      [SpiOp.rstLow, SpiOp.delayMs 120, SpiOp.rstHigh, SpiOp.delayMs 150,
       SpiOp.dcLow, SpiOp.csLow, SpiOp.spiWrite [0x01], SpiOp.csHigh,
       SpiOp.delayMs 150,
       SpiOp.dcLow, SpiOp.csLow, SpiOp.spiWrite [0x11], SpiOp.csHigh,
       SpiOp.delayMs 150,
       SpiOp.dcLow, SpiOp.csLow, SpiOp.spiWrite [0x3A], SpiOp.csHigh,
       SpiOp.dcHigh, SpiOp.csLow, SpiOp.spiWrite [0x55], SpiOp.csHigh,
       SpiOp.delayMs 10,
       SpiOp.dcLow, SpiOp.csLow, SpiOp.spiWrite [0x36], SpiOp.csHigh,
       SpiOp.dcHigh, SpiOp.csLow, SpiOp.spiWrite [0x00], SpiOp.csHigh,
       SpiOp.delayMs 10,
       SpiOp.dcLow, SpiOp.csLow, SpiOp.spiWrite [0x29], SpiOp.csHigh,
       SpiOp.delayMs 10] := by
  decide

/-- C3 (counterexample). The synchronous SPI variant's init never
writes the inversion-on opcode (0x21) and contains no 50 ms settle
delay, contradicting the claim that the listed sequence — including
inversion-on and the 50 ms display-on settle — holds for both
variants. -/
theorem claim_C3_counterexample :
    initSpiSteps.count (SpiOp.spiWrite [0x21]) = 0 ∧
      initSpiSteps.count (SpiOp.delayMs 50) = 0 ∧
      initDmaTr.count (Ev.cmd 0x21) = 1 := by
  decide

/-- C4. `set_size` serializes each 16-bit bound big-endian (MSB
first) and adds the vertical offset to both y bounds; concretely, for
`x_start = 0, x_end = 239` the CASET payload is `[0x00,0x00,0x00,0xEF]`
and with offset 20, y range `[0,279]`, the RASET payload is
`[0x00,0x14,0x01,0x2B]`. -/
theorem claim_C4 (OFFSET xs xe ys ye : Nat)
    (hxs : xs < 65536) (hxe : xe < 65536)
    (hys : ys + OFFSET < 65536) (hye : ye + OFFSET < 65536)
    (hOF : OFFSET < 65536) :
    dataBursts (setSizeTr OFFSET xs xe ys ye) =
      [[xs / 256, xs % 256, xe / 256, xe % 256],
       [(ys + OFFSET) / 256, (ys + OFFSET) % 256,
        (ye + OFFSET) / 256, (ye + OFFSET) % 256]] ∧
    dataBursts (setSizeTr 20 0 239 0 279) =
      [[0x00, 0x00, 0x00, 0xEF], [0x00, 0x14, 0x01, 0x2B]] := by
  refine ⟨?_, by decide⟩
  rw [dataBursts_setSize]
  have h1 : u16add ys (u16of OFFSET) = ys + OFFSET := by
    simp only [u16add, u16of]
    omega
  have h2 : u16add ye (u16of OFFSET) = ye + OFFSET := by
    simp only [u16add, u16of]
    omega
  rw [h1, h2]
  simp only [be16, List.cons_append, List.nil_append]
  have e1 : xs / 256 % 256 = xs / 256 := by omega
  have e2 : xe / 256 % 256 = xe / 256 := by omega
  have e3 : (ys + OFFSET) / 256 % 256 = (ys + OFFSET) / 256 := by omega
  have e4 : (ye + OFFSET) / 256 % 256 = (ye + OFFSET) / 256 := by omega
  rw [e1, e2, e3, e4]

/-- Witness for C4 at the claim's concrete values. -/
theorem claim_C4_witness :
    dataBursts (setSizeTr 20 0 239 0 279) =
      [[0 / 256, 0 % 256, 239 / 256, 239 % 256],
       [(0 + 20) / 256, (0 + 20) % 256, (279 + 20) / 256, (279 + 20) % 256]] ∧
    dataBursts (setSizeTr 20 0 239 0 279) =
      [[0x00, 0x00, 0x00, 0xEF], [0x00, 0x14, 0x01, 0x2B]] :=
  claim_C4 20 0 239 0 279 (by decide) (by decide) (by decide) (by decide)
    (by decide)

/-- C5. `draw_color_entire_screen` calls `set_size(0, 240, 0, 320)`
on the default `W = 240, H = 280, OFFSET = 20` panel, which establishes
the window `x ∈ [0, 240]`, `y ∈ [20, 340]`: `x_end = 240` is *not*
`< 240 = W` and `y_end − offset = 320` is *not* `< 280 = H`, violating
the claimed invariant (the sibling `draw_entire_screen`, evaluated
below, does satisfy it, marking the intent). -/
theorem claim_C5 :
    windowOf (drawColorEntireScreenTr 240 280 20 0) = (0, 240, 20, 340) ∧
      ¬(240 < 240) ∧ ¬(340 - 20 < 280) ∧
      windowOf (drawEntireScreenTr 240 280 20 []) = (0, 239, 20, 299) ∧
      239 < 240 ∧ 299 - 20 < 280 := by
  decide

/-- C7. In the DMA variant, `send_command` and `send_data_u8`
return the same updated staging state and emit the same bus trace
whether or not the transfer-error flag is set; the flag only selects
the logged diagnostic, and the functions are total — no error is ever
returned to the caller. -/
theorem claim_C7 (s : DmaBufs) (c b : Nat) (e : Bool) :
    (sendCommandDma s c e).1 = (sendCommandDma s c false).1 ∧
    (sendCommandDma s c e).2.1 = (sendCommandDma s c false).2.1 ∧
    ((sendCommandDma s c e).2.2 = Diag.errorLog ↔ e = true) ∧
    (sendDataU8Dma s b e).1 = (sendDataU8Dma s b false).1 ∧
    (sendDataU8Dma s b e).2.1 = (sendDataU8Dma s b false).2.1 ∧
    ((sendDataU8Dma s b e).2.2 = Diag.errorLog ↔ e = true) := by
  cases e <;> simp [sendCommandDma, sendDataU8Dma]

/-- C9 (amended). The DMA frame primitives never touch chip-select
(the surrounding macros manage it, so a low chip-select stays low
across a primitive call), but in the synchronous SPI variant each
primitive asserts *and deasserts* chip-select itself: after
`send_command`/`send_data` return, the chip-select level is high
(deasserted), whatever it was before — the frozen claim is false for
the SPI variant (see the counterexample). -/
theorem claim_C9 (s : DmaBufs) (c b : Nat) (e : Bool) (bs : List Nat)
    (lvl : Bool) :
    Ev.csLow ∉ (sendCommandDma s c e).2.1 ∧
    Ev.csHigh ∉ (sendCommandDma s c e).2.1 ∧
    Ev.csLow ∉ (sendDataU8Dma s b e).2.1 ∧
    Ev.csHigh ∉ (sendDataU8Dma s b e).2.1 ∧
    csLevelAfter lvl (sendCommandSpiSteps c) = true ∧
    csLevelAfter lvl (sendDataSpiSteps bs) = true := by
  cases e <;> cases lvl <;>
    simp [sendCommandDma, sendDataU8Dma, sendCommandSpiSteps,
      sendDataSpiSteps, csLevelAfter]

/-- C9 (counterexample). After the synchronous SPI `send_command`
(here with the write-RAM opcode) the chip-select level is high
(deasserted), even when it was low (asserted) before the call: the
primitive does not leave chip-select asserted, so the claim fails for
the SPI variant. -/
theorem claim_C9_counterexample :
    csLevelAfter false (sendCommandSpiSteps 0x2C) = true ∧
      csLevelAfter false (sendDataSpiSteps [0x55]) = true ∧
      true ≠ false := by
  decide

theorem dataBursts_replicate (m : Nat) (bs : List Nat) :
    dataBursts (List.replicate m (Ev.data bs)) = List.replicate m bs := by
  induction m with
  | zero => rfl
  | succ m ih =>
    simp only [List.replicate_succ, dataBursts] at ih ⊢
    simp [ih]

theorem flatten_replicate_length (m : Nat) (l : List α) :
    (List.replicate m l).flatten.length = m * l.length := by
  induction m with
  | zero => simp
  | succ m ih =>
    simp only [List.replicate_succ, List.flatten_cons, List.length_append, ih]
    ring

/-- C10. `draw_color_entire_screen` fills its 2 KiB staging buffer
with `color as u8` — the low byte of the 16-bit color — so every
transmitted payload byte equals `color mod 256` (the big-endian
MSB/LSB pair is never produced), and it transmits exactly
`((W*H*2)/2048 + 1) * 2048` payload bytes, strictly more than the
`W*H*2` bytes of the full screen. -/
theorem claim_C10 (W H OFFSET color : Nat) :
    payloadBursts (drawColorEntireScreenTr W H OFFSET color) =
      List.replicate (W * H * 2 / (2 * 1024) + 1)
        (List.replicate (2 * 1024) (color % 256)) ∧
    (payloadBursts (drawColorEntireScreenTr W H OFFSET color)).flatten.length =
      (W * H * 2 / (2 * 1024) + 1) * (2 * 1024) ∧
    W * H * 2 < (W * H * 2 / (2 * 1024) + 1) * (2 * 1024) ∧
    (∀ byte ∈ (payloadBursts (drawColorEntireScreenTr W H OFFSET color)).flatten,
      byte = color % 256) := by
  have hpb : payloadBursts (drawColorEntireScreenTr W H OFFSET color) =
      List.replicate (W * H * 2 / (2 * 1024) + 1)
        (List.replicate (2 * 1024) (color % 256)) := by
    rw [drawColorEntireScreenTr, payloadBursts_shape, dataBursts_replicate]
  refine ⟨hpb, ?_, by omega, ?_⟩
  · rw [hpb, flatten_replicate_length, List.length_replicate]
  · intro byte hmem
    rw [hpb] at hmem
    obtain ⟨l, hl, hbyte⟩ := List.mem_flatten.mp hmem
    have hleq := List.eq_of_mem_replicate hl
    rw [hleq] at hbyte
    exact List.eq_of_mem_replicate hbyte

theorem afterCmd_csCommandTr_self (c d : Nat) (rest : List Ev) :
    afterCmd c (csCommandTr c d ++ rest) = Ev.delayMs d :: Ev.csHigh :: rest := by
  simp only [csCommandTr, sendCommandTr, afterCmd, List.cons_append,
    List.nil_append, List.dropWhile]
  norm_num [isCmd]

/-- The observable property of a single chunked write-RAM payload
phase: data mode is set once and chip-select asserted once before the
first chunk, chip-select is deasserted once after the last chunk, and
between the chunks there are only data transfers — no chip-select or
data/command-line activity. -/
def singleSelectPhase (phase : List Ev) : Prop :=
  (∃ bl : List (List Nat),
      phase = [Ev.dcHigh, Ev.csLow] ++ bl.map Ev.data ++ [Ev.csHigh]) ∧
  phase.count Ev.csLow = 1 ∧ phase.count Ev.csHigh = 1 ∧
  phase.count Ev.dcHigh = 1 ∧ phase.count Ev.dcLow = 0

theorem singleSelectPhase_mk (bl : List (List Nat)) :
    singleSelectPhase ([Ev.dcHigh, Ev.csLow] ++ bl.map Ev.data ++ [Ev.csHigh]) := by
  refine ⟨⟨bl, rfl⟩, ?_, ?_, ?_, ?_⟩ <;>
    simp [List.count_append, List.count_cons,
      count_map_data Ev.csLow bl (by intro bs h; cases h),
      count_map_data Ev.csHigh bl (by intro bs h; cases h),
      count_map_data Ev.dcHigh bl (by intro bs h; cases h),
      count_map_data Ev.dcLow bl (by intro bs h; cases h)]

/-- C6. In `send_frame`, `draw_entire_screen` and `fill_contiguous`
the chunked write-RAM payload phase sets data mode once and asserts
chip-select once before the first chunk, deasserts it once after the
last chunk, and performs no chip-select or data/command transitions
between chunks. -/
theorem claim_C6 (W H OFFSET C : Nat) (area : Rect) (src buf1 buf2 : List Nat)
    (hsrc : (interRect area (bbox W H)).w * (interRect area (bbox W H)).h
      ≤ src.length) :
    singleSelectPhase (sendFrameTr buf1) ∧
    singleSelectPhase ((afterCmd RAMWR (drawEntireScreenTr W H OFFSET buf2)).drop 2) ∧
    ∃ out, fillContiguous W H OFFSET C area src = some out ∧
      singleSelectPhase ((afterCmd RAMWR out.trace).drop 2) := by
  refine ⟨?_, ?_, ?_⟩
  · exact singleSelectPhase_mk (chunksOf (32 * 1024) buf1)
  · have hshape : afterCmd RAMWR (drawEntireScreenTr W H OFFSET buf2) =
        Ev.delayMs 10 :: Ev.csHigh ::
          ([Ev.dcHigh, Ev.csLow]
            ++ (chunksOf (32 * 1024) buf2).map Ev.data ++ [Ev.csHigh]) := by
      simp only [drawEntireScreenTr, List.append_assoc]
      rw [afterCmd_append_of_clean RAMWR _ _
        (isCmd_csSeq RAMWR CASET (by decide) _ _ _)]
      rw [afterCmd_append_of_clean RAMWR _ _
        (isCmd_csSeq RAMWR RASET (by decide) _ _ _)]
      rw [afterCmd_csCommandTr_self]
    rw [hshape]
    exact singleSelectPhase_mk (chunksOf (32 * 1024) buf2)
  · obtain ⟨bursts, fb, hrun, hcontent, hfill⟩ :=
      fillContiguous_run W H OFFSET C area src hsrc
    refine ⟨_, hfill, ?_⟩
    have hshape : afterCmd RAMWR
        (setSizeTr OFFSET (toU16 (interRect area (bbox W H)).x)
          (toU16 ((interRect area (bbox W H)).x + (interRect area (bbox W H)).w - 1))
          (toU16 (interRect area (bbox W H)).y)
          (toU16 ((interRect area (bbox W H)).y + (interRect area (bbox W H)).h - 1))
          ++ beginDrawTr ++ [Ev.dcHigh, Ev.csLow]
          ++ bursts.map Ev.data
          ++ (if fb.length > 0 then [Ev.data fb] else [])
          ++ [Ev.csHigh]) =
        Ev.delayMs 10 :: Ev.csHigh ::
          ([Ev.dcHigh, Ev.csLow]
            ++ (bursts ++ if fb.length > 0 then [fb] else []).map Ev.data
            ++ [Ev.csHigh]) := by
      simp only [List.append_assoc]
      rw [afterCmd_append_of_clean RAMWR _ _
        (isCmd_setSize RAMWR (by decide) (by decide) OFFSET _ _ _ _)]
      rw [beginDrawTr, afterCmd_csCommandTr_self]
      simp only [List.map_append, List.cons_append, List.nil_append,
        List.append_assoc]
      split_ifs <;> simp
    dsimp only
    rw [hshape]
    exact singleSelectPhase_mk _

/-- Witness for C6: concrete buffers and a 1×1 fill on a 2×2 panel. -/
theorem claim_C6_witness :
    singleSelectPhase (sendFrameTr [1]) ∧
    singleSelectPhase ((afterCmd RAMWR (drawEntireScreenTr 2 2 0 [2])).drop 2) ∧
    ∃ out, fillContiguous 2 2 0 4 ⟨0, 0, 1, 1⟩ [5] = some out ∧
      singleSelectPhase ((afterCmd RAMWR out.trace).drop 2) :=
  claim_C6 2 2 0 4 ⟨0, 0, 1, 1⟩ [5] [1] [2] (by decide)

theorem runSteps_none (env : Nat → Bool) :
    ∀ (steps : List SpiOp) (k : Nat), (runSteps env steps k).2 = none →
      (runSteps env steps k).1 = steps := by
  intro steps
  induction steps with
  | nil => intro k _; rfl
  | cons op rest ih =>
    intro k hres
    cases herr : errOf op with
    | none =>
      simp only [runSteps, herr] at hres ⊢
      rw [ih (k + 1) hres]
    | some e =>
      by_cases henv : env k
      · simp only [runSteps, herr, if_pos henv] at hres ⊢
        rw [ih (k + 1) hres]
      · simp only [runSteps, herr, if_neg henv] at hres
        exact Option.noConfusion hres

theorem runSteps_some (env : Nat → Bool) :
    ∀ (steps : List SpiOp) (k : Nat) (e : SpiErr),
      (runSteps env steps k).2 = some e →
      ∃ n op, steps[n]? = some op ∧ errOf op = some e ∧
        (runSteps env steps k).1 = steps.take (n + 1) ∧
        env (k + n) = false ∧
        ∀ m op', m < n → steps[m]? = some op' → errOf op' ≠ none →
          env (k + m) = true := by
  intro steps
  induction steps with
  | nil => intro k e hres; simp [runSteps] at hres
  | cons op rest ih =>
    intro k e hres
    cases herr : errOf op with
    | none =>
      simp only [runSteps, herr] at hres ⊢
      obtain ⟨n, op', hget, herr', htr, henv, hpre⟩ := ih (k + 1) e hres
      refine ⟨n + 1, op', by simpa using hget, herr', ?_, ?_, ?_⟩
      · simp [htr]
      · have : k + (n + 1) = k + 1 + n := by omega
        rw [this]
        exact henv
      · intro m op'' hm hget'' herr''
        match m with
        | 0 =>
          simp only [List.getElem?_cons_zero, Option.some.injEq] at hget''
          rw [← hget''] at herr''
          exact absurd herr (by simpa using herr'')
        | m' + 1 =>
          have : k + (m' + 1) = k + 1 + m' := by omega
          rw [this]
          exact hpre m' op'' (by omega) (by simpa using hget'') herr''
    | some e0 =>
      by_cases henv : env k
      · simp only [runSteps, herr, if_pos henv] at hres ⊢
        obtain ⟨n, op', hget, herr', htr, henvn, hpre⟩ := ih (k + 1) e hres
        refine ⟨n + 1, op', by simpa using hget, herr', ?_, ?_, ?_⟩
        · simp [htr]
        · have : k + (n + 1) = k + 1 + n := by omega
          rw [this]
          exact henvn
        · intro m op'' hm hget'' herr''
          match m with
          | 0 =>
            have : k + 0 = k := by omega
            rw [this]
            exact henv
          | m' + 1 =>
            have : k + (m' + 1) = k + 1 + m' := by omega
            rw [this]
            exact hpre m' op'' (by omega) (by simpa using hget'') herr''
      · simp only [runSteps, herr, if_neg henv] at hres ⊢
        refine ⟨0, op, by simp, ?_, by simp, by simpa using henv, ?_⟩
        · rw [herr, ← hres]
        · intro m op'' hm
          omega

/-- The fail-fast property of one public operation of the synchronous
SPI driver: either every pin/bus operation succeeds and the full fixed
sequence runs, or the run stops at the first failing operation with
the error tag of that operation and performs nothing after it. -/
def spiAborts (env : Nat → Bool) (steps : List SpiOp) : Prop :=
  match (runSteps env steps 0).2 with
  | none => (runSteps env steps 0).1 = steps
  | some e =>
    ∃ n op, steps[n]? = some op ∧ errOf op = some e ∧
      (runSteps env steps 0).1 = steps.take (n + 1) ∧
      env n = false ∧
      ∀ m op', m < n → steps[m]? = some op' → errOf op' ≠ none → env m = true

theorem spiAborts_all (env : Nat → Bool) (steps : List SpiOp) :
    spiAborts env steps := by
  unfold spiAborts
  cases hres : (runSteps env steps 0).2 with
  | none => exact runSteps_none env steps 0 hres
  | some e =>
    obtain ⟨n, op, hget, herr, htr, henv, hpre⟩ := runSteps_some env steps 0 e hres
    exact ⟨n, op, hget, herr, htr, by simpa using henv,
      fun m op' hm hget' herr' => by simpa using hpre m op' hm hget' herr'⟩

/-- C8. Every public operation of the synchronous SPI variant
(`init`, `draw_screen`, `send_command`, `send_data`) aborts at the
first failing bus write or pin drive, returning the matching tagged
error (`Spi`, `CS`, `DC` or `RST`) and performing no further bus or
pin operation — and with no failure it runs its full fixed sequence. -/
theorem claim_C8 (env : Nat → Bool) (W H : Nat) (buffer : List Nat)
    (c : Nat) (bs : List Nat) :
    spiAborts env initSpiSteps ∧
    spiAborts env (drawScreenSpiSteps W H buffer) ∧
    spiAborts env (sendCommandSpiSteps c) ∧
    spiAborts env (sendDataSpiSteps bs) :=
  ⟨spiAborts_all env _, spiAborts_all env _, spiAborts_all env _,
    spiAborts_all env _⟩

end ST7789
